import Mathlib

/-!
A shallow embedding of the population-statistics code of
`plot_spectra.py` (class `PlottingSpectra`): the numpy binning
primitives it relies on (`np.arange`, `np.histogram`, `np.min`,
`np.max`, `np.log10`), the conditional-breakdown helper
`_plot_breakdown`, the zero-substitution ratio policy, the log-domain
transforms used by `_plot_2d_contour` and `kstest`, the in-place array
update performed by `plot_temp`, and a spec-modelled two-sample 2D KS
statistic.  Machine floats are modelled by exact rationals; where only
the presence of a `log10` or `10 ** x` transform matters (never its
numeric value on positive inputs) the transform is an explicit
function parameter `l` respectively `e10`.
-/

/-- Errors surfaced by the numpy primitives used in `_plot_breakdown`:
a reduction (`np.min` or `np.max`) over a zero-size array, a histogram
requested over an empty edge array, and an out-of-range tuple index. -/
inductive NpErr where
  | zeroSizeReduction : NpErr
  | emptyBinEdges : NpErr
  | indexError : NpErr
deriving DecidableEq

/-- Embedding of `np.min`: fails on an empty array (zero-size reduction). -/
def np_min : List ℚ → Except NpErr ℚ
  | [] => Except.error NpErr.zeroSizeReduction
  | x :: xs => Except.ok (xs.foldl min x)

/-- Embedding of `np.max`: fails on an empty array (zero-size reduction). -/
def np_max : List ℚ → Except NpErr ℚ
  | [] => Except.error NpErr.zeroSizeReduction
  | x :: xs => Except.ok (xs.foldl max x)

/-- Embedding of `np.arange(start, stop, step)`: an arithmetic sequence
of length `ceil((stop - start) / step)`, empty when that is not positive.
The stop value itself is never included. -/
def np_arange (start stop step : ℚ) : List ℚ :=
  (List.range (Int.toNat ⌈(stop - start) / step⌉)).map (fun i => start + (i : ℚ) * step)

/-- Bin assignment of `np.histogram` over an explicit edge array,
carrying the index of the first remaining edge: every bin is half-open
`[e i, e (i+1))` except the final one, which is closed on the right;
values outside the edge span get no bin. -/
def binIndexAux : ℕ → List ℚ → ℚ → Option ℕ
  | i, [e1, e2], v => if e1 ≤ v ∧ v ≤ e2 then some i else none
  | i, e1 :: e2 :: e3 :: rest, v =>
    if e1 ≤ v ∧ v < e2 then some i else binIndexAux (i + 1) (e2 :: e3 :: rest) v
  | _, _, _ => none

/-- Bin index a value falls into under the numpy edge conventions. -/
def binIndex (edges : List ℚ) (v : ℚ) : Option ℕ :=
  binIndexAux 0 edges v

/-- The count array produced by `np.histogram(values, edges)` for a
nonempty edge array: one count per bin. -/
def histogramNp (values : List ℚ) (edges : List ℚ) : List ℕ :=
  (List.range (edges.length - 1)).map
    (fun i => values.countP (fun v => decide (binIndex edges v = some i)))

/-- Embedding of an `np.histogram(values, edges)` call: with an empty
edge array numpy raises before producing any count. -/
def np_histogram (values edges : List ℚ) : Except NpErr (List ℕ) :=
  if edges.isEmpty then Except.error NpErr.emptyBinEdges
  else Except.ok (histogramNp values edges)

/-- Embedding of the bin-center comprehension used at lines 272, 305,
319, 341, 393, 394 and 428: the arithmetic mean of each adjacent edge
pair, taken in whatever domain the edge array is stored in. -/
def bin_centers_np : List ℚ → List ℚ
  | a :: b :: rest => (a + b) / 2 :: bin_centers_np (b :: rest)
  | _ => []

/-- Embedding of the edge construction of `_plot_breakdown`
(lines 266 to 271): for log bins, `10 ** np.arange(min(log10 array),
max(log10 array), dv)` with `l` standing for `log10` and `e10` for
`10 ** x`; for linear bins, `np.arange(min array, max array, dv)`. -/
def make_v_table (l e10 : ℚ → ℚ) (logf : Bool) (array : List ℚ) (dv : ℚ) :
    Except NpErr (List ℚ) :=
  if logf then
    match np_min (array.map l) with
    | Except.error e => Except.error e
    | Except.ok lo =>
      match np_max (array.map l) with
      | Except.error e => Except.error e
      | Except.ok hi => Except.ok ((np_arange lo hi dv).map e10)
  else
    match np_min array with
    | Except.error e => Except.error e
    | Except.ok lo =>
      match np_max array with
      | Except.error e => Except.error e
      | Except.ok hi => Except.ok (np_arange lo hi dv)

/-- Embedding of line 275 (and lines 228, 308): every zero count of a
histogram is replaced by 1 before the histogram is used as a ratio
denominator. -/
def zeroSub (h : List ℕ) : List ℕ :=
  h.map (fun c => if c = 0 then 1 else c)

/-- Embedding of `vhist2 / (1. * vhist)` at line 282: the element-wise
ratio of a subset histogram against the (already zero-substituted)
total histogram. -/
def fracCurve (sub den : List ℕ) : List ℚ :=
  List.zipWith (fun a b => (a : ℚ) / (b : ℚ)) sub den

/-- Embedding of line 262, `ind = np.where(halo[filt] > 0)`: the
sightlines (given as pairs of diagnostic value and nearest-halo index,
already restricted to `filt`) whose halo index is positive. -/
def haloSel (pairs : List (ℚ × ℤ)) : List (ℚ × ℤ) :=
  pairs.filter (fun p => decide (0 < p.2))

/-- The full restricted value array `array[filt]` of `_plot_breakdown`
(line 264), over which the total histogram is taken. -/
def breakdown_total (pairs : List (ℚ × ℤ)) : List ℚ :=
  pairs.map Prod.fst

/-- Embedding of lines 280 to 281: the subset of restricted sightlines
selected for one covariate range, where `vv` is the virial velocity of
a halo index.  The numpy mask is `(virial > low) * (virial < high)`:
both comparisons are strict. -/
def breakdown_subset (vv : ℤ → ℚ) (pairs : List (ℚ × ℤ)) (low high : ℚ) : List ℚ :=
  ((haloSel pairs).filter
      (fun p => decide (low < vv p.2) && decide (vv p.2 < high))).map Prod.fst

/-- Selection following the words of the spec for comparison: the
covariate falls in the half-open interval `[low, high)`, the lower
endpoint included. -/
def breakdown_subset_specIntv (vv : ℤ → ℚ) (pairs : List (ℚ × ℤ)) (low high : ℚ) :
    List ℚ :=
  ((haloSel pairs).filter
      (fun p => decide (low ≤ vv p.2) && decide (vv p.2 < high))).map Prod.fst

/-- The fixed color table of `_plot_breakdown` (line 276). -/
def colors : List String :=
  ["red", "purple", "cyan"]

/-- The fixed linestyle table of `_plot_breakdown` (line 277). -/
def lss : List String :=
  ["--", ":", "-"]

/-- Embedding of the per-range loop of `_plot_breakdown` (lines 279 to
282): for the range at position `ii`, histogram the selected subset,
divide by the substituted total histogram, and look the plotting style
up in the fixed three-element tables; a missing table entry is a
Python `IndexError` raised before the curve for that range is
emitted. -/
def breakdown_curves (vv : ℤ → ℚ) (pairs : List (ℚ × ℤ)) (vt : List ℚ)
    (den : List ℕ) : ℕ → List (ℚ × ℚ × String) →
    Except NpErr (List (String × String × String × List ℚ))
  | _, [] => Except.ok []
  | ii, r :: rs =>
    let vhist2 := histogramNp (breakdown_subset vv pairs r.1 r.2.1) vt
    let curve := fracCurve vhist2 den
    match colors.get? ii, lss.get? ii with
    | some col, some sty =>
      match breakdown_curves vv pairs vt den (ii + 1) rs with
      | Except.error e => Except.error e
      | Except.ok rest => Except.ok ((col, sty, r.2.2, curve) :: rest)
    | _, _ => Except.error NpErr.indexError

/-- Edge construction followed by the total histogram of
`_plot_breakdown` (lines 266 to 274), as one fallible step. -/
def breakdown_binhist (l e10 : ℚ → ℚ) (logf : Bool) (array : List ℚ) (dv : ℚ) :
    Except NpErr (List ℚ × List ℕ) :=
  match make_v_table l e10 logf array dv with
  | Except.error e => Except.error e
  | Except.ok vt =>
    match np_histogram array vt with
    | Except.error e => Except.error e
    | Except.ok h => Except.ok (vt, h)

/-- Embedding of the whole of `_plot_breakdown` (lines 256 to 282):
build edges and the total histogram over the restricted values,
zero-substitute the total, compute bin centers, and emit one fraction
curve (with its style and label) per covariate range. -/
def plot_breakdown (l e10 : ℚ → ℚ) (vv : ℤ → ℚ) (logf : Bool)
    (pairs : List (ℚ × ℤ)) (ranges : List (ℚ × ℚ × String)) (dv : ℚ) :
    Except NpErr (List ℚ × List (String × String × String × List ℚ)) :=
  match breakdown_binhist l e10 logf (breakdown_total pairs) dv with
  | Except.error e => Except.error e
  | Except.ok (vt, vhist) =>
    match breakdown_curves vv pairs vt (zeroSub vhist) 0 ranges with
    | Except.error e => Except.error e
    | Except.ok curves => Except.ok (bin_centers_np vt, curves)

/-- A numpy floating value as far as the log transforms are concerned:
finite, negative infinity, or NaN. -/
inductive NpFloat where
  | finite : ℚ → NpFloat
  | neginf : NpFloat
  | nan : NpFloat
deriving DecidableEq

/-- Embedding of `np.log10` applied to one value: on a positive input
it yields the finite value `l v` (with `l` standing for the exact
base-10 logarithm); on zero it yields negative infinity and on a
negative input NaN, in both cases with only a runtime warning, never
an exception. -/
def np_log10f (l : ℚ → ℚ) (v : ℚ) : NpFloat :=
  if 0 < v then NpFloat.finite (l v)
  else if v = 0 then NpFloat.neginf
  else NpFloat.nan

/-- Embedding of the transform prologue of `_plot_2d_contour`
(lines 388 to 391): apply `np.log10` to each axis for which the log
flag is set, otherwise keep the values as they are. -/
def contour_transform (l : ℚ → ℚ) (ylog xlog : Bool) (xvals yvals : List ℚ) :
    List NpFloat × List NpFloat :=
  ((if xlog then xvals.map (np_log10f l) else xvals.map NpFloat.finite),
   (if ylog then yvals.map (np_log10f l) else yvals.map NpFloat.finite))

/-- Log-transform step following the words of the spec for comparison:
fail with NonPositiveLogInputError whenever any value of the axis data
is not positive, otherwise return the log-domain values. -/
def log_transform_spec (l : ℚ → ℚ) (xs : List ℚ) : Except String (List ℚ) :=
  if xs.any (fun v => decide (v ≤ 0)) then Except.error ("NonPositiveLogInputError")
  else Except.ok (xs.map l)

/-- Embedding of line 416 of `kstest`: the external reference columns
are log-transformed and zipped into one point per sightline,
`np.array([np.log10(Zdata), np.log10(veldata)]).T`. -/
def kstest_logdata (l : ℚ → ℚ) (Zdata veldata : List ℚ) : List (NpFloat × NpFloat) :=
  List.zip (Zdata.map (np_log10f l)) (veldata.map (np_log10f l))

/-- The arrays handed out by the spectra accessors, modelled as
explicit state so that in-place writes become visible: numpy indexing
returns views, hence `den` at line 191 and the slice `vel` at line 162
are the stored arrays themselves. -/
structure SpecState where
  density : List ℚ
  velocity : List ℚ

/-- Embedding of lines 190 to 193 of `plot_temp`: the statement
`den[np.where(den < 1e-6)] = 0.` writes through the accessor-returned
density array, so after the call the stored density has every entry
below `1e-6` replaced by zero. -/
def plot_temp_mutation (st : SpecState) : SpecState :=
  { st with density := st.density.map (fun x => if x < 1 / 1000000 then 0 else x) }

/-- Embedding of line 164 of `plot_den_to_tau`: `vel -= vel[imax] - voff`
subtracts a constant from the accessor-returned velocity slice in
place. -/
def plot_den_to_tau_velshift (vel : List ℚ) (imax : ℕ) (voff : ℚ) : List ℚ :=
  vel.map (fun x => x - (vel.getD imax 0 - voff))

/-- Modelled from the spec: the fraction of the points of `d` that lie
in one of the four quadrants anchored at `p` (the quadrant is chosen
by the two strictness flags).  The generic two-sample 2D KS routine
`ks.ks_2d_2samp` lives in the `kstest` module, which is not part of
the analysed source. -/
def quadFracGT (p : ℚ × ℚ) (d : List (ℚ × ℚ)) (qx qy : Bool) : ℚ :=
  (d.countP (fun r =>
      (if qx then decide (p.1 < r.1) else decide (r.1 ≤ p.1)) &&
      (if qy then decide (p.2 < r.2) else decide (r.2 ≤ p.2))) : ℚ) / (d.length : ℚ)

/-- Modelled from the spec: the absolute difference of the two
empirical quadrant fractions at one anchor point. -/
def quadDiff (d1 d2 : List (ℚ × ℚ)) (p : ℚ × ℚ) (qx qy : Bool) : ℚ :=
  |quadFracGT p d1 qx qy - quadFracGT p d2 qx qy|

/-- Modelled from the spec: the largest quadrant discrepancy at one
anchor point, over the four quadrants. -/
def maxDiffAt (d1 d2 : List (ℚ × ℚ)) (p : ℚ × ℚ) : ℚ :=
  max (max (quadDiff d1 d2 p true true) (quadDiff d1 d2 p true false))
    (max (quadDiff d1 d2 p false true) (quadDiff d1 d2 p false false))

/-- Modelled from the spec: the largest quadrant discrepancy anchored
at any point of `origins`. -/
def maxDiffOver (origins d1 d2 : List (ℚ × ℚ)) : ℚ :=
  (origins.map (maxDiffAt d1 d2)).foldr max 0

/-- Modelled from the spec: the two-sample two-dimensional KS
statistic, the mean of the maximal quadrant discrepancies anchored at
the points of either sample (the `kstest` module implementing
`ks.ks_2d_2samp` is not part of the analysed source). -/
def ks_2d_2samp (d1 d2 : List (ℚ × ℚ)) : ℚ :=
  (maxDiffOver d1 d1 d2 + maxDiffOver d2 d1 d2) / 2

/-- Auxiliary: a list map is the identity exactly when the function
fixes every element. -/
lemma list_map_eq_self_iff {α : Type} (f : α → α) (l : List α) :
    l.map f = l ↔ ∀ x ∈ l, f x = x := by
  induction l with
  | nil => simp
  | cons a t ih => simp [ih]

/-- Auxiliary evaluation: `np.arange(1, 3, 1)` is `[1, 2]`. -/
lemma np_arange_one_three : np_arange 1 3 1 = [1, 2] := by
  have hc : (⌈(((3 : ℚ) - 1) / 1)⌉ : ℤ) = 2 := by norm_num
  rw [np_arange, hc]
  show ([0, 1] : List ℕ).map (fun i => 1 + (i : ℚ) * 1) = [1, 2]
  norm_num

/-- Auxiliary evaluation: the edge construction of scenario 1. -/
lemma make_v_table_scenario1 :
    make_v_table id id false [1, 1, 2, 2, 3, 3, 3] 1 = Except.ok [1, 2] := by
  have hmin : np_min [1, 1, 2, 2, 3, 3, 3] = Except.ok 1 := by
    norm_num [np_min, List.foldl, min_def]
  have hmax : np_max [1, 1, 2, 2, 3, 3, 3] = Except.ok 3 := by
    norm_num [np_max, List.foldl, max_def]
  simp [make_v_table, hmin, hmax, np_arange_one_three]

/-- C4 counterexample: on `values = [1,1,2,2,3,3,3]` with linear bin
width 1, the edge array produced by lines 266 to 271 is `[1, 2]`
(np.arange excludes the stop value `max = 3`), not the `[1, 2, 3]` the
claim states. -/
theorem scenario1_edges_differ :
    make_v_table id id false [1, 1, 2, 2, 3, 3, 3] 1 = Except.ok [1, 2] ∧
    ¬ make_v_table id id false [1, 1, 2, 2, 3, 3, 3] 1 = Except.ok [1, 2, 3] := by
  refine ⟨make_v_table_scenario1, fun h => ?_⟩
  have : ([1, 2] : List ℚ) = [1, 2, 3] :=
    Except.ok.inj (make_v_table_scenario1.symm.trans h)
  simp at this

/-- C4 amended: for `values = [1,1,2,2,3,3,3]` with linear bin width 1
the produced edges are `[1, 2]` and the histogram over them is the
single bin `[1, 2]` (closed on the right by the numpy convention) with
count 4; the three values equal to 3 lie outside the edge span and are
dropped. -/
theorem scenario1_edges_and_counts :
    make_v_table id id false [1, 1, 2, 2, 3, 3, 3] 1 = Except.ok [1, 2] ∧
    np_histogram [1, 1, 2, 2, 3, 3, 3] [1, 2] = Except.ok [4] := by
  refine ⟨make_v_table_scenario1, ?_⟩
  have h : histogramNp [1, 1, 2, 2, 3, 3, 3] [1, 2] = [4] := by decide
  simp [np_histogram, h]

/-- C5 counterexample: a value exactly equal to the final edge is
counted in the final bin, not dropped: `np.histogram([3], [1,2,3])`
yields counts `[0, 1]`, where the claim states it would yield
`[0, 0]`. -/
theorem histogram_last_edge_counted :
    histogramNp [3] [1, 2, 3] = [0, 1] ∧ ¬ histogramNp [3] [1, 2, 3] = [0, 0] := by
  decide

/-- C3 counterexample: fed an array whose log-spaced edges come out as
`[1, 10]` (that is `10 ** 0` and `10 ** 1`, log bin width 1), the
breakdown center comprehension of line 272 averages the linear-domain
edges and yields `11 / 2`; the geometric mean `g` of the edge pair
satisfies `g ^ 2 = 1 * 10`, which `11 / 2` does not, so the center is
not the log-domain average re-exponentiated.  The functions stand for
`log10` and `10 ** x` at the two points used. -/
theorem log_bin_center_not_geometric :
    make_v_table (fun q => if q = 1 then 0 else 2) (fun t => if t = 0 then 1 else 10)
        true [1, 100] 1 = Except.ok [1, 10] ∧
    bin_centers_np [1, 10] = [11 / 2] ∧
    ¬ ((11 / 2 : ℚ) ^ 2 = 1 * 10) := by
  have harange : np_arange 0 2 1 = [0, 1] := by
    have hc : (⌈(((2 : ℚ) - 0) / 1)⌉ : ℤ) = 2 := by norm_num
    rw [np_arange, hc]
    show ([0, 1] : List ℕ).map (fun i => 0 + (i : ℚ) * 1) = [0, 1]
    norm_num
  have hmap : ([1, 100] : List ℚ).map (fun q => if q = 1 then (0 : ℚ) else 2) = [0, 2] := by
    norm_num
  refine ⟨?_, ?_, by norm_num⟩
  · simp only [make_v_table, hmap]
    norm_num [np_min, np_max, List.foldl, min_def, max_def, harange]
  · norm_num [bin_centers_np]

/-- C3 amended: every bin center produced by the comprehension of
lines 272 and 393 to 394 is the arithmetic mean of its two adjacent
edges in the domain in which the edges are stored (for
`_plot_breakdown` the linear-domain, possibly log-spaced, edges; for
`_plot_2d_contour` the log-transformed edges before re-exponentiation),
and for strictly increasing edges it lies strictly between them. -/
theorem bin_center_arith_mean (a b : ℚ) (rest : List ℚ) (hab : a < b) :
    bin_centers_np (a :: b :: rest) = (a + b) / 2 :: bin_centers_np (b :: rest) ∧
    a < (a + b) / 2 ∧ (a + b) / 2 < b := by
  refine ⟨rfl, by linarith, by linarith⟩

/-- Witness for the amended C3 theorem at the concrete edge pair 1, 10. -/
theorem bin_center_arith_mean_witness :
    (1 : ℚ) < 10 ∧
    (bin_centers_np [(1 : ℚ), 10] = (1 + 10) / 2 :: bin_centers_np [10] ∧
      (1 : ℚ) < (1 + 10) / 2 ∧ ((1 : ℚ) + 10) / 2 < 10) :=
  ⟨by norm_num, bin_center_arith_mean 1 10 [] (by norm_num)⟩

/-- C1 counterexample: a sightline whose covariate (virial velocity)
equals the lower endpoint of the range is excluded by the strict mask
of line 280, while the selection described by the claim (half-open
interval, lower endpoint included) keeps it. -/
theorem breakdown_subset_lower_edge_excluded :
    breakdown_subset (fun h => (h : ℚ)) [(1, 60)] 60 120 = [] ∧
    breakdown_subset_specIntv (fun h => (h : ℚ)) [(1, 60)] 60 120 = [1] := by
  decide

/-- C1 amended: the subset attributed to a covariate range is exactly
the restricted sightlines with positive halo index whose covariate lies
in the open interval: both a covariate equal to `low` and one equal to
`high` are excluded. -/
theorem breakdown_subset_open_interval (vv : ℤ → ℚ) (low high x : ℚ) (hID : ℤ)
    (pairs : List (ℚ × ℤ)) :
    breakdown_subset vv ((x, hID) :: pairs) low high =
      (if 0 < hID ∧ low < vv hID ∧ vv hID < high then [x] else []) ++
        breakdown_subset vv pairs low high ∧
    breakdown_subset vv [(x, hID)] (vv hID) high = [] ∧
    breakdown_subset vv [(x, hID)] low (vv hID) = [] := by
  refine ⟨?_, ?_, ?_⟩
  · by_cases h1 : 0 < hID
    · by_cases h2 : low < vv hID
      · by_cases h3 : vv hID < high
        · simp [breakdown_subset, haloSel, List.filter_cons, h1, h2, h3]
        · simp [breakdown_subset, haloSel, List.filter_cons, h1, h2, h3]
      · by_cases h3 : vv hID < high
        · simp [breakdown_subset, haloSel, List.filter_cons, h1, h2, h3]
        · simp [breakdown_subset, haloSel, List.filter_cons, h1, h2, h3]
    · simp [breakdown_subset, haloSel, List.filter_cons, h1]
  · simp [breakdown_subset, haloSel, List.filter_cons, lt_irrefl]
  · by_cases h1 : 0 < hID <;>
      simp [breakdown_subset, haloSel, List.filter_cons, lt_irrefl, h1]

/-- C9 counterexample: after `plot_temp` runs on a stored density array
holding the single value `1e-7`, the stored density is `[0]`: the
accessor-returned array has been changed in place, contradicting the
claim that every input array is unchanged. -/
theorem plot_temp_mutates_density :
    (plot_temp_mutation { density := [1 / 10000000], velocity := [] }).density = [0] ∧
    ¬ ((1 : ℚ) / 10000000 = 0) := by
  refine ⟨?_, by norm_num⟩
  show ([1 / 10000000] : List ℚ).map (fun x => if x < 1 / 1000000 then 0 else x) = [0]
  simp only [List.map_cons, List.map_nil]
  rw [if_pos (by norm_num : (1 : ℚ) / 10000000 < 1 / 1000000)]

/-- C9 amended: `plot_temp` zeroes, in place, every entry of the
accessor-returned density array lying below `1e-6`, so the stored
density survives the call unchanged exactly when each such entry was
already zero (`plot_den_to_tau` likewise shifts the accessor-returned
velocity slice in place). -/
theorem plot_temp_mutation_iff (st : SpecState) :
    (plot_temp_mutation st).density = st.density ↔
      ∀ x ∈ st.density, x < 1 / 1000000 → x = 0 := by
  show st.density.map (fun x => if x < 1 / 1000000 then 0 else x) = st.density ↔ _
  rw [list_map_eq_self_iff]
  constructor
  · intro h x hx hlt
    have := h x hx
    rw [if_pos hlt] at this
    exact this.symm
  · intro h x hx
    by_cases hlt : x < 1 / 1000000
    · rw [if_pos hlt, h x hx hlt]
    · rw [if_neg hlt]

/-- C8 (spec-modelled): the two-sample two-dimensional KS statistic is
commutative in its two samples. -/
theorem ks_2d_2samp_comm (d1 d2 : List (ℚ × ℚ)) :
    ks_2d_2samp d1 d2 = ks_2d_2samp d2 d1 := by
  have hq : maxDiffAt d1 d2 = maxDiffAt d2 d1 := by
    funext p
    simp [maxDiffAt, quadDiff, abs_sub_comm]
  have hover : ∀ o, maxDiffOver o d1 d2 = maxDiffOver o d2 d1 := by
    intro o
    rw [maxDiffOver, maxDiffOver, hq]
  rw [ks_2d_2samp, ks_2d_2samp, hover, hover, add_comm]

/-- C6 counterexample: with a log transform requested on both axes and
an x datum equal to zero, the transform prologue of `_plot_2d_contour`
completes and hands the non-finite value on to the histogram step,
while the behaviour the claim describes (the spec-worded transform)
fails with NonPositiveLogInputError. -/
theorem contour_log_no_error :
    contour_transform id true true [0, 5] [3] =
      ([NpFloat.neginf, NpFloat.finite 5], [NpFloat.finite 3]) ∧
    log_transform_spec id [0, 5] = Except.error ("NonPositiveLogInputError") := by
  exact ⟨by decide, rfl⟩

/-- C6 amended: the code applies `np.log10` unconditionally; a value
equal to zero becomes negative infinity and a negative value becomes
NaN, and that non-finite value is carried into the transformed x data
of `_plot_2d_contour` and into the paired reference sample built by
`kstest`; no error is raised on any input. -/
theorem log10_nonpositive_propagates (l : ℚ → ℚ) (v : ℚ) (ylog : Bool)
    (xs ys Z vel : List ℚ) (hv : v ≤ 0) (hx : v ∈ xs) (hZ : v ∈ Z)
    (hlen : Z.length ≤ vel.length) :
    np_log10f l v = (if v = 0 then NpFloat.neginf else NpFloat.nan) ∧
    np_log10f l v ∈ (contour_transform l ylog true xs ys).1 ∧
    np_log10f l v ∈ (kstest_logdata l Z vel).map Prod.fst := by
  refine ⟨?_, ?_, ?_⟩
  · rw [np_log10f, if_neg (not_lt.mpr hv)]
  · show np_log10f l v ∈ xs.map (np_log10f l)
    exact List.mem_map_of_mem _ hx
  · rw [kstest_logdata, List.map_fst_zip _ _ (by simpa using hlen)]
    exact List.mem_map_of_mem _ hZ

/-- Witness for the amended C6 theorem at the concrete input 0. -/
theorem log10_nonpositive_propagates_witness :
    ((0 : ℚ) ≤ 0 ∧ (0 : ℚ) ∈ [(0 : ℚ)] ∧ (0 : ℚ) ∈ [(0 : ℚ)] ∧
      ([(0 : ℚ)]).length ≤ ([(7 : ℚ)]).length) ∧
    (np_log10f id 0 = (if (0 : ℚ) = 0 then NpFloat.neginf else NpFloat.nan) ∧
      np_log10f id 0 ∈ (contour_transform id false true [(0 : ℚ)] []).1 ∧
      np_log10f id 0 ∈ (kstest_logdata id [(0 : ℚ)] [(7 : ℚ)]).map Prod.fst) :=
  ⟨⟨le_refl 0, by simp, by simp, by simp⟩,
    log10_nonpositive_propagates id 0 false [(0 : ℚ)] [] [(0 : ℚ)] [(7 : ℚ)]
      le_rfl (by simp) (by simp) (by simp)⟩

/-- Unfolding equation of the two-edge (final bin) case. -/
lemma binIndexAux_cons2 (i : ℕ) (e1 e2 v : ℚ) :
    binIndexAux i [e1, e2] v = if e1 ≤ v ∧ v ≤ e2 then some i else none := rfl

/-- Unfolding equation of the non-final bin case. -/
lemma binIndexAux_cons3 (i : ℕ) (e1 e2 e3 : ℚ) (rest : List ℚ) (v : ℚ) :
    binIndexAux i (e1 :: e2 :: e3 :: rest) v =
      if e1 ≤ v ∧ v < e2 then some i else binIndexAux (i + 1) (e2 :: e3 :: rest) v := rfl

/-- A value below every edge is assigned no bin. -/
lemma binIndexAux_none_of_forall_lt (v : ℚ) :
    ∀ (es : List ℚ) (i : ℕ), (∀ e ∈ es, v < e) → binIndexAux i es v = none := by
  intro es
  induction es with
  | nil => intro i _; rfl
  | cons e1 tail ih =>
    intro i h
    have h1 : v < e1 := h e1 (List.mem_cons_self e1 tail)
    rcases tail with _ | ⟨e2, _ | ⟨e3, rest⟩⟩
    · rfl
    · rw [binIndexAux_cons2, if_neg (fun hc => absurd hc.1 (not_le.mpr h1))]
    · rw [binIndexAux_cons3, if_neg (fun hc => absurd hc.1 (not_le.mpr h1))]
      exact ih (i + 1) (fun e he => h e (List.mem_cons_of_mem _ he))

/-- A value above every edge is assigned no bin. -/
lemma binIndexAux_none_of_forall_gt (v : ℚ) :
    ∀ (es : List ℚ) (i : ℕ), (∀ e ∈ es, e < v) → binIndexAux i es v = none := by
  intro es
  induction es with
  | nil => intro i _; rfl
  | cons e1 tail ih =>
    intro i h
    rcases tail with _ | ⟨e2, _ | ⟨e3, rest⟩⟩
    · rfl
    · have h2 : e2 < v := h e2 (List.mem_cons_of_mem _ (List.mem_cons_self e2 []))
      rw [binIndexAux_cons2, if_neg (fun hc => absurd hc.2 (not_le.mpr h2))]
    · have h2 : e2 < v := h e2 (List.mem_cons_of_mem _ (List.mem_cons_self e2 _))
      rw [binIndexAux_cons3, if_neg (fun hc => absurd hc.2 (lt_asymm h2))]
      exact ih (i + 1) (fun e he => h e (List.mem_cons_of_mem _ he))

/-- In a strictly increasing list the head bounds every position. -/
lemma chain_head_le_getD : ∀ (j : ℕ) (x : ℚ) (t : List ℚ),
    List.Chain' (· < ·) (x :: t) → j < (x :: t).length → x ≤ (x :: t).getD j 0 := by
  intro j
  induction j with
  | zero => intro x t _ _; rw [List.getD_cons_zero]
  | succ k ih =>
    intro x t hc hj
    cases t with
    | nil => simp at hj
    | cons y t2 =>
      rw [List.getD_cons_succ]
      have hxy : x < y := (List.chain'_cons.mp hc).1
      have hk : k < (y :: t2).length := by
        simp only [List.length_cons] at hj ⊢; omega
      exact le_trans (le_of_lt hxy) (ih y t2 (List.chain'_cons.mp hc).2 hk)

/-- In a strictly increasing list the head bounds the last element. -/
lemma chain_head_le_getLast : ∀ (t : List ℚ) (x : ℚ),
    List.Chain' (· < ·) (x :: t) → x ≤ (x :: t).getLast (List.cons_ne_nil x t) := by
  intro t
  induction t with
  | nil => intro x _; exact le_of_eq rfl
  | cons y t2 ih =>
    intro x hc
    rw [List.getLast_cons (List.cons_ne_nil y t2)]
    exact le_trans (le_of_lt (List.chain'_cons.mp hc).1)
      (ih y (List.chain'_cons.mp hc).2)

/-- The value equal to the final edge is assigned the final bin. -/
lemma binIndexAux_last : ∀ (rest : List ℚ) (e1 e2 : ℚ) (i : ℕ),
    List.Chain' (· < ·) (e1 :: e2 :: rest) →
    binIndexAux i (e1 :: e2 :: rest) ((e2 :: rest).getLast (List.cons_ne_nil e2 rest)) =
      some (i + rest.length) := by
  intro rest
  induction rest with
  | nil =>
    intro e1 e2 i hc
    have h12 : e1 < e2 := (List.chain'_cons.mp hc).1
    rw [show ((e2 :: []).getLast (List.cons_ne_nil e2 [])) = e2 from rfl,
      binIndexAux_cons2, if_pos ⟨le_of_lt h12, le_refl e2⟩]
    simp
  | cons e3 rest2 ih =>
    intro e1 e2 i hc
    have hc2 : List.Chain' (· < ·) (e2 :: e3 :: rest2) := (List.chain'_cons.mp hc).2
    have hL : e2 ≤ (e3 :: rest2).getLast (List.cons_ne_nil e3 rest2) := by
      have hh := chain_head_le_getLast (e3 :: rest2) e2 hc2
      rwa [List.getLast_cons (List.cons_ne_nil e3 rest2)] at hh
    rw [List.getLast_cons (List.cons_ne_nil e3 rest2), binIndexAux_cons3,
      if_neg (fun hcond => absurd hcond.2 (not_lt.mpr hL))]
    have hrec := ih e2 e3 (i + 1) hc2
    rw [hrec, List.length_cons]
    congr 1
    omega

/-- A value equal to a non-final edge is assigned the bin whose lower
edge it is. -/
lemma binIndexAux_edge : ∀ (j : ℕ) (es : List ℚ) (k1 : ℕ),
    List.Chain' (· < ·) es → j + 1 < es.length →
    binIndexAux k1 es (es.getD j 0) = some (k1 + j) := by
  intro j
  induction j with
  | zero =>
    intro es k1 hc hlen
    rcases es with _ | ⟨e1, _ | ⟨e2, rest⟩⟩
    · simp at hlen
    · simp at hlen
    · have h12 : e1 < e2 := (List.chain'_cons.mp hc).1
      rcases rest with _ | ⟨e3, rest2⟩
      · rw [List.getD_cons_zero, binIndexAux_cons2, if_pos ⟨le_refl e1, le_of_lt h12⟩]
        simp
      · rw [List.getD_cons_zero, binIndexAux_cons3, if_pos ⟨le_refl e1, h12⟩]
        simp
  | succ m ih =>
    intro es k1 hc hlen
    rcases es with _ | ⟨e1, _ | ⟨e2, rest⟩⟩
    · simp at hlen
    · simp at hlen
    · have hc2 : List.Chain' (· < ·) (e2 :: rest) := (List.chain'_cons.mp hc).2
      have hmlen : m < (e2 :: rest).length := by
        simp only [List.length_cons] at hlen ⊢; omega
      have h2v : e2 ≤ (e2 :: rest).getD m 0 := chain_head_le_getD m e2 rest hc2 hmlen
      rcases rest with _ | ⟨e3, rest2⟩
      · simp only [List.length_cons, List.length_nil] at hlen; omega
      · rw [List.getD_cons_succ, binIndexAux_cons3,
          if_neg (fun hcond => absurd hcond.2 (not_lt.mpr h2v))]
        have hrec := ih (e2 :: e3 :: rest2) (k1 + 1) hc2 (by
          simp only [List.length_cons] at hlen ⊢; omega)
        rw [hrec]
        congr 1
        omega

/-- The position of the last element, as a getD access. -/
lemma getD_last : ∀ (l : List ℚ) (h : l ≠ []), l.getD (l.length - 1) 0 = l.getLast h := by
  intro l
  induction l with
  | nil => intro h; exact absurd rfl h
  | cons x t ih =>
    intro h
    cases t with
    | nil => rfl
    | cons y t2 =>
      rw [show (x :: y :: t2).length - 1 = ((y :: t2).length - 1) + 1 by
          simp only [List.length_cons]; omega,
        List.getD_cons_succ, ih (List.cons_ne_nil y t2),
        List.getLast_cons (List.cons_ne_nil y t2)]

/-- C5 amended: over a strictly increasing edge array, the numpy
histogram conventions are: a value below every edge or above every
edge is silently assigned no bin; a value equal to the final edge is
counted in the final bin (the final bin is closed on the right); and a
value equal to any non-final edge is assigned the bin whose lower edge
it is (half-open bins elsewhere). -/
theorem histogram_edge_conventions (edges : List ℚ) (v : ℚ) (i : ℕ)
    (hs : List.Chain' (· < ·) edges) (h2 : 2 ≤ edges.length) :
    ((∀ e ∈ edges, v < e) → binIndex edges v = none) ∧
    ((∀ e ∈ edges, e < v) → binIndex edges v = none) ∧
    binIndex edges (edges.getD (edges.length - 1) 0) = some (edges.length - 2) ∧
    (i + 1 < edges.length → binIndex edges (edges.getD i 0) = some i) := by
  refine ⟨fun h => binIndexAux_none_of_forall_lt v edges 0 h,
    fun h => binIndexAux_none_of_forall_gt v edges 0 h, ?_, fun hlen => ?_⟩
  · rcases edges with _ | ⟨e1, _ | ⟨e2, rest⟩⟩
    · simp at h2
    · simp at h2
    · have hbridge : (e1 :: e2 :: rest).getD ((e1 :: e2 :: rest).length - 1) 0 =
          (e2 :: rest).getLast (List.cons_ne_nil e2 rest) := by
        rw [getD_last (e1 :: e2 :: rest) (List.cons_ne_nil _ _),
          List.getLast_cons (List.cons_ne_nil e2 rest)]
      rw [hbridge, binIndex, binIndexAux_last rest e1 e2 0 hs]
      simp only [List.length_cons]
      congr 1
      omega
  · rw [binIndex, binIndexAux_edge i edges 0 hs hlen]
    simp

/-- Witness for the amended C5 theorem at the concrete edge array
`[1, 2, 3]`. -/
theorem histogram_edge_conventions_witness :
    (List.Chain' (· < ·) [(1 : ℚ), 2, 3] ∧ 2 ≤ ([(1 : ℚ), 2, 3]).length) ∧
    (((∀ e ∈ [(1 : ℚ), 2, 3], (0 : ℚ) < e) → binIndex [1, 2, 3] 0 = none) ∧
      ((∀ e ∈ [(1 : ℚ), 2, 3], e < (0 : ℚ)) → binIndex [1, 2, 3] 0 = none) ∧
      binIndex [1, 2, 3] (([(1 : ℚ), 2, 3]).getD (([(1 : ℚ), 2, 3]).length - 1) 0) =
        some (([(1 : ℚ), 2, 3]).length - 2) ∧
      (1 + 1 < ([(1 : ℚ), 2, 3]).length →
        binIndex [1, 2, 3] (([(1 : ℚ), 2, 3]).getD 1 0) = some 1)) :=
  ⟨⟨by norm_num [List.chain'_cons, List.chain'_singleton], by decide⟩,
    histogram_edge_conventions [1, 2, 3] 0 1
      (by norm_num [List.chain'_cons, List.chain'_singleton]) (by decide)⟩

/-- Indexing a map over a range below its length. -/
lemma getD_range_map {β : Type} (f : ℕ → β) (n i : ℕ) (d : β) (hi : i < n) :
    ((List.range n).map f).getD i d = f i := by
  rw [List.getD_eq_getElem?_getD, List.getElem?_map, List.getElem?_range hi]
  rfl

/-- Indexing a map below the list length. -/
lemma getD_map_of_lt {α β : Type} (f : α → β) (l : List α) (i : ℕ)
    (hi : i < l.length) (dα : α) (dβ : β) :
    (l.map f).getD i dβ = f (l.getD i dα) := by
  rw [List.getD_eq_getElem?_getD, List.getElem?_map, List.getElem?_eq_getElem hi,
    List.getD_eq_getElem?_getD, List.getElem?_eq_getElem hi]
  rfl

/-- A histogram has one entry per bin. -/
lemma histogramNp_length (values edges : List ℚ) :
    (histogramNp values edges).length = edges.length - 1 := by
  simp [histogramNp]

/-- Zero substitution does not change the histogram shape. -/
lemma zeroSub_length (h : List ℕ) : (zeroSub h).length = h.length := by
  simp [zeroSub]

/-- A histogram entry is the count of values assigned to that bin. -/
lemma histogramNp_getD (values edges : List ℚ) (i : ℕ) (hi : i + 1 < edges.length) :
    (histogramNp values edges).getD i 0 =
      values.countP (fun v => decide (binIndex edges v = some i)) := by
  rw [histogramNp]
  exact getD_range_map _ _ _ _ (by omega)

/-- Indexing an element-wise ratio of two count lists. -/
lemma fracCurve_getD (a b : List ℕ) (i : ℕ) (ha : i < a.length) (hb : i < b.length) :
    (fracCurve a b).getD i 0 = ((a.getD i 0 : ℚ) / (b.getD i 0 : ℚ)) := by
  induction a generalizing b i with
  | nil => simp at ha
  | cons x xs ih =>
    cases b with
    | nil => simp at hb
    | cons y ys =>
      cases i with
      | zero => rfl
      | succ j =>
        simp only [fracCurve, List.zipWith_cons_cons, List.getD_cons_succ]
        exact ih ys j (by simpa using ha) (by simpa using hb)

/-- Per bin, a covariate-range subset contributes at most as many
counts as the full restricted array: the subset is a filtered sublist. -/
lemma breakdown_subset_countP_le (vv : ℤ → ℚ) (pairs : List (ℚ × ℤ)) (low high : ℚ)
    (p : ℚ → Bool) :
    (breakdown_subset vv pairs low high).countP p ≤ (breakdown_total pairs).countP p := by
  rw [breakdown_subset, breakdown_total, haloSel, List.countP_map, List.countP_map]
  exact List.Sublist.countP_le _ ((List.filter_sublist _).trans (List.filter_sublist _))

/-- C2: in the breakdown ratio computation every substituted
denominator entry is positive (the ratio is never division by zero),
every per-range fraction is at most 1, and a bin whose total count is
zero gets the fraction 0. -/
theorem breakdown_fraction_bounds (vv : ℤ → ℚ) (pairs : List (ℚ × ℤ)) (edges : List ℚ)
    (low high : ℚ) (i : ℕ) (hi : i + 1 < edges.length) :
    0 < (zeroSub (histogramNp (breakdown_total pairs) edges)).getD i 0 ∧
    (fracCurve (histogramNp (breakdown_subset vv pairs low high) edges)
        (zeroSub (histogramNp (breakdown_total pairs) edges))).getD i 0 ≤ 1 ∧
    ((histogramNp (breakdown_total pairs) edges).getD i 0 = 0 →
      (fracCurve (histogramNp (breakdown_subset vv pairs low high) edges)
          (zeroSub (histogramNp (breakdown_total pairs) edges))).getD i 0 = 0) := by
  have hlenT : i < (histogramNp (breakdown_total pairs) edges).length := by
    rw [histogramNp_length]; omega
  have hlenS : i < (histogramNp (breakdown_subset vv pairs low high) edges).length := by
    rw [histogramNp_length]; omega
  have hlenD : i < (zeroSub (histogramNp (breakdown_total pairs) edges)).length := by
    rw [zeroSub_length]; exact hlenT
  have hT := histogramNp_getD (breakdown_total pairs) edges i hi
  have hS := histogramNp_getD (breakdown_subset vv pairs low high) edges i hi
  have hden : (zeroSub (histogramNp (breakdown_total pairs) edges)).getD i 0 =
      if (histogramNp (breakdown_total pairs) edges).getD i 0 = 0 then 1
      else (histogramNp (breakdown_total pairs) edges).getD i 0 := by
    rw [zeroSub, getD_map_of_lt _ _ _ hlenT 0 0]
  have hfrac : (fracCurve (histogramNp (breakdown_subset vv pairs low high) edges)
      (zeroSub (histogramNp (breakdown_total pairs) edges))).getD i 0 =
      ((histogramNp (breakdown_subset vv pairs low high) edges).getD i 0 : ℚ) /
        ((zeroSub (histogramNp (breakdown_total pairs) edges)).getD i 0 : ℚ) :=
    fracCurve_getD _ _ i hlenS hlenD
  have hST : (histogramNp (breakdown_subset vv pairs low high) edges).getD i 0 ≤
      (histogramNp (breakdown_total pairs) edges).getD i 0 := by
    rw [hT, hS]
    exact breakdown_subset_countP_le vv pairs low high _
  by_cases hT0 : (histogramNp (breakdown_total pairs) edges).getD i 0 = 0
  · have hS0 : (histogramNp (breakdown_subset vv pairs low high) edges).getD i 0 = 0 := by
      omega
    have hden1 : (zeroSub (histogramNp (breakdown_total pairs) edges)).getD i 0 = 1 := by
      rw [hden, if_pos hT0]
    refine ⟨by rw [hden1]; norm_num, ?_, fun _ => ?_⟩
    · rw [hfrac, hS0, hden1]
      norm_num
    · rw [hfrac, hS0, hden1]
      norm_num
  · have hdenT : (zeroSub (histogramNp (breakdown_total pairs) edges)).getD i 0 =
        (histogramNp (breakdown_total pairs) edges).getD i 0 := by
      rw [hden, if_neg hT0]
    have hpos : 0 < (histogramNp (breakdown_total pairs) edges).getD i 0 :=
      Nat.pos_of_ne_zero hT0
    refine ⟨by rw [hdenT]; exact hpos, ?_, fun hcontra => absurd hcontra hT0⟩
    rw [hfrac, hdenT, div_le_one (by exact_mod_cast hpos)]
    exact_mod_cast hST

/-- Witness for the C2 theorem at a concrete breakdown input. -/
theorem breakdown_fraction_bounds_witness :
    (0 + 1 < ([(0 : ℚ), 1, 2] : List ℚ).length) ∧
    (0 < (zeroSub (histogramNp (breakdown_total [((1 : ℚ), (2 : ℤ))]) [0, 1, 2])).getD 0 0 ∧
      (fracCurve
          (histogramNp (breakdown_subset (fun h => (h : ℚ)) [((1 : ℚ), (2 : ℤ))] 0 10) [0, 1, 2])
          (zeroSub (histogramNp (breakdown_total [((1 : ℚ), (2 : ℤ))]) [0, 1, 2]))).getD 0 0 ≤ 1 ∧
      ((histogramNp (breakdown_total [((1 : ℚ), (2 : ℤ))]) [0, 1, 2]).getD 0 0 = 0 →
        (fracCurve
            (histogramNp (breakdown_subset (fun h => (h : ℚ)) [((1 : ℚ), (2 : ℤ))] 0 10) [0, 1, 2])
            (zeroSub (histogramNp (breakdown_total [((1 : ℚ), (2 : ℤ))]) [0, 1, 2]))).getD 0 0 = 0)) :=
  ⟨by decide, breakdown_fraction_bounds (fun h => (h : ℚ)) [((1 : ℚ), (2 : ℤ))] [0, 1, 2]
    0 10 0 (by decide)⟩

/-- Folding min over a constant list is the constant. -/
lemma foldl_min_const (c : ℚ) : ∀ xs : List ℚ, (∀ y ∈ xs, y = c) → xs.foldl min c = c := by
  intro xs
  induction xs with
  | nil => intro _; rfl
  | cons a t ih =>
    intro h
    show t.foldl min (min c a) = c
    rw [h a (List.mem_cons_self a t), min_self]
    exact ih (fun y hy => h y (List.mem_cons_of_mem _ hy))

/-- Folding max over a constant list is the constant. -/
lemma foldl_max_const (c : ℚ) : ∀ xs : List ℚ, (∀ y ∈ xs, y = c) → xs.foldl max c = c := by
  intro xs
  induction xs with
  | nil => intro _; rfl
  | cons a t ih =>
    intro h
    show t.foldl max (max c a) = c
    rw [h a (List.mem_cons_self a t), max_self]
    exact ih (fun y hy => h y (List.mem_cons_of_mem _ hy))

/-- The minimum of a nonempty constant array. -/
lemma np_min_const (c : ℚ) (xs : List ℚ) (hne : xs ≠ []) (h : ∀ y ∈ xs, y = c) :
    np_min xs = Except.ok c := by
  cases xs with
  | nil => exact absurd rfl hne
  | cons a t =>
    show Except.ok (t.foldl min a) = Except.ok c
    rw [h a (List.mem_cons_self a t),
      foldl_min_const c t (fun y hy => h y (List.mem_cons_of_mem _ hy))]

/-- The maximum of a nonempty constant array. -/
lemma np_max_const (c : ℚ) (xs : List ℚ) (hne : xs ≠ []) (h : ∀ y ∈ xs, y = c) :
    np_max xs = Except.ok c := by
  cases xs with
  | nil => exact absurd rfl hne
  | cons a t =>
    show Except.ok (t.foldl max a) = Except.ok c
    rw [h a (List.mem_cons_self a t),
      foldl_max_const c t (fun y hy => h y (List.mem_cons_of_mem _ hy))]

/-- An arange over a zero-width span is empty. -/
lemma np_arange_self (c dv : ℚ) : np_arange c c dv = [] := by
  simp [np_arange]

/-- C7: whenever the restricted value array is empty or constant, the
edge-plus-histogram stage of `_plot_breakdown` fails (an empty array
already fails inside the min reduction; a constant array produces an
empty edge array over which the histogram call fails), and the whole
breakdown surfaces exactly that error with no partial result. -/
theorem degenerate_binning_errors (l e10 : ℚ → ℚ) (vv : ℤ → ℚ) (logf : Bool)
    (pairs : List (ℚ × ℤ)) (ranges : List (ℚ × ℚ × String)) (dv : ℚ) (c : ℚ)
    (hdeg : breakdown_total pairs = [] ∨ ∀ x ∈ breakdown_total pairs, x = c) :
    ∃ e : NpErr,
      breakdown_binhist l e10 logf (breakdown_total pairs) dv = Except.error e ∧
      plot_breakdown l e10 vv logf pairs ranges dv = Except.error e := by
  by_cases hne : breakdown_total pairs = []
  · have hmv : make_v_table l e10 logf (breakdown_total pairs) dv =
        Except.error NpErr.zeroSizeReduction := by
      rw [hne]
      cases logf
      · rfl
      · rfl
    exact ⟨NpErr.zeroSizeReduction,
      by simp [breakdown_binhist, hmv],
      by simp [plot_breakdown, breakdown_binhist, hmv]⟩
  · have hconst : ∀ x ∈ breakdown_total pairs, x = c := hdeg.resolve_left hne
    have hmv : make_v_table l e10 logf (breakdown_total pairs) dv =
        Except.ok ([] : List ℚ) := by
      cases logf with
      | false =>
        simp [make_v_table, np_min_const c _ hne hconst, np_max_const c _ hne hconst,
          np_arange_self]
      | true =>
        have hmapne : (breakdown_total pairs).map l ≠ [] := by
          simpa using hne
        have hmapc : ∀ y ∈ (breakdown_total pairs).map l, y = l c := by
          intro y hy
          rcases List.mem_map.mp hy with ⟨x, hx, rfl⟩
          rw [hconst x hx]
        simp [make_v_table, np_min_const (l c) _ hmapne hmapc,
          np_max_const (l c) _ hmapne hmapc, np_arange_self]
    exact ⟨NpErr.emptyBinEdges,
      by simp [breakdown_binhist, hmv, np_histogram],
      by simp [plot_breakdown, breakdown_binhist, hmv, np_histogram]⟩

/-- Witness for the C7 theorem on the constant one-sightline input. -/
theorem degenerate_binning_errors_witness :
    (breakdown_total [((5 : ℚ), (1 : ℤ))] = [] ∨
      ∀ x ∈ breakdown_total [((5 : ℚ), (1 : ℤ))], x = (5 : ℚ)) ∧
    (∃ e : NpErr,
      breakdown_binhist id id false (breakdown_total [((5 : ℚ), (1 : ℤ))]) 1 =
        Except.error e ∧
      plot_breakdown id id (fun h => (h : ℚ)) false [((5 : ℚ), (1 : ℤ))] [] 1 =
        Except.error e) :=
  ⟨Or.inr (by decide), degenerate_binning_errors id id (fun h => (h : ℚ)) false
    [((5 : ℚ), (1 : ℤ))] [] 1 5 (Or.inr (by decide))⟩

/-- The per-range loop raises an IndexError as soon as it reaches the
fourth range position, the style tables holding only three entries. -/
lemma breakdown_curves_overflow (vv : ℤ → ℚ) (pairs : List (ℚ × ℤ)) (vt : List ℚ)
    (den : List ℕ) :
    ∀ (rs : List (ℚ × ℚ × String)) (ii : ℕ), rs ≠ [] → 4 ≤ ii + rs.length →
    breakdown_curves vv pairs vt den ii rs = Except.error NpErr.indexError := by
  intro rs
  induction rs with
  | nil => intro ii h _; exact absurd rfl h
  | cons r rs2 ih =>
    intro ii _ hlen
    by_cases h3 : 3 ≤ ii
    · have hcol : colors.get? ii = none := by
        rw [List.get?_eq_none]
        simpa [colors] using h3
      have hcol2 : colors[ii]? = none := by
        rwa [← List.get?_eq_getElem?]
      simp [breakdown_curves, hcol, hcol2]
    · push_neg at h3
      have hlen2 : 4 ≤ (ii + 1) + rs2.length := by
        simp only [List.length_cons] at hlen; omega
      have hne2 : rs2 ≠ [] := by
        intro h0
        subst h0
        simp at hlen2
        omega
      have hrec := ih (ii + 1) hne2 hlen2
      interval_cases ii
      · simp [breakdown_curves, colors, lss, hrec]
      · simp [breakdown_curves, colors, lss, hrec]
      · simp [breakdown_curves, colors, lss, hrec]

/-- C10: whenever the breakdown edge construction succeeds but four or
more covariate ranges are supplied, `_plot_breakdown` fails with an
out-of-bounds index error from the fixed three-entry style tables
instead of producing one fraction curve per range. -/
theorem breakdown_four_ranges_index_error (l e10 : ℚ → ℚ) (vv : ℤ → ℚ) (logf : Bool)
    (pairs : List (ℚ × ℤ)) (ranges : List (ℚ × ℚ × String)) (dv : ℚ)
    (vt : List ℚ) (vhist : List ℕ)
    (hbins : breakdown_binhist l e10 logf (breakdown_total pairs) dv =
      Except.ok (vt, vhist))
    (hlen : 4 ≤ ranges.length) :
    plot_breakdown l e10 vv logf pairs ranges dv = Except.error NpErr.indexError := by
  have hne : ranges ≠ [] := by
    intro h
    rw [h] at hlen
    simp at hlen
  have hcurves := breakdown_curves_overflow vv pairs vt (zeroSub vhist) ranges 0 hne
    (by omega)
  simp [plot_breakdown, hbins, hcurves]

/-- Auxiliary evaluation: `np.arange(0, 2, 1)` is `[0, 1]`. -/
lemma np_arange_zero_two : np_arange 0 2 1 = [0, 1] := by
  have hc : (⌈(((2 : ℚ) - 0) / 1)⌉ : ℤ) = 2 := by norm_num
  rw [np_arange, hc]
  show ([0, 1] : List ℕ).map (fun i => 0 + (i : ℚ) * 1) = [0, 1]
  norm_num

/-- Auxiliary evaluation: a successful breakdown edge construction on
the two-sightline array with values 0 and 2. -/
lemma binhist_zero_two : breakdown_binhist id id false [0, 2] 1 = Except.ok ([0, 1], [1]) := by
  have hmin : np_min [0, 2] = Except.ok 0 := by
    norm_num [np_min, List.foldl, min_def]
  have hmax : np_max [0, 2] = Except.ok 2 := by
    norm_num [np_max, List.foldl, max_def]
  have hhist : histogramNp [0, 2] [0, 1] = [1] := by decide
  simp [breakdown_binhist, make_v_table, hmin, hmax, np_arange_zero_two, np_histogram, hhist]

/-- Witness for the C10 theorem at a concrete four-range call. -/
theorem breakdown_four_ranges_index_error_witness :
    (breakdown_binhist id id false (breakdown_total [((0 : ℚ), (1 : ℤ)), (2, 1)]) 1 =
        Except.ok ([0, 1], [1]) ∧
      4 ≤ ([((0 : ℚ), (1 : ℚ), "a"), (0, 1, "b"), (0, 1, "c"), (0, 1, "d")]).length) ∧
    plot_breakdown id id (fun h => (h : ℚ)) false [((0 : ℚ), (1 : ℤ)), (2, 1)]
        [((0 : ℚ), (1 : ℚ), "a"), (0, 1, "b"), (0, 1, "c"), (0, 1, "d")] 1 =
      Except.error NpErr.indexError :=
  ⟨⟨binhist_zero_two, by simp⟩,
    breakdown_four_ranges_index_error id id (fun h => (h : ℚ)) false
      [((0 : ℚ), (1 : ℤ)), (2, 1)]
      [((0 : ℚ), (1 : ℚ), "a"), (0, 1, "b"), (0, 1, "c"), (0, 1, "d")] 1 [0, 1] [1]
      binhist_zero_two (by simp)⟩
